import Mathlib

/-!
Verification of the tinynn neural-network engine.

The repository contains two example scripts under `examples/mnist/`
(`run.py`, `run2.py`); the engine itself (`core/layers.py`, `core/losses.py`,
`core/optimizer.py`, `core/model.py`, `core/nn.py`) is imported by those
scripts but its source is not available here, so those components are
modelled from the specification, as marked on each definition.

Numeric arrays are embedded as Lean lists or functions; floating-point
values are idealised as rationals (`ℚ`) where only ordered-field operations
occur, and as reals (`ℝ`) where `exp`, `log` or `sqrt` appear.
-/

set_option maxHeartbeats 1000000

namespace TinyNN

/-! ### `get_one_hot` (src/examples/mnist/run.py lines 29-30, run2.py lines 31-32) -/

/-- Row `t` of `np.eye nb`: entry `c` is `1` when `t = c`, else `0`. -/
def eyeRow (nb t : ℕ) : List ℚ :=
  (List.range nb).map (fun c => if t = c then 1 else 0)

/-- `get_one_hot(targets, nb_classes)` from run.py: indexes the rows of the
`nb×nb` identity matrix `np.eye(nb_classes)` by each target value.  (For a
target out of range numpy raises; the claims only concern in-range targets,
where row `t` is `eyeRow nb t`.) -/
def get_one_hot (targets : List ℕ) (nb : ℕ) : List (List ℚ) :=
  targets.map (fun t => eyeRow nb t)

/-! ### run.py input-space optimization loop (lines 146-172) -/

/-- `np.clip(x, 0, 1.0)` on one element. -/
def clip01 (x : ℚ) : ℚ := min (max x 0) 1

/-- One iteration tail of run.py's input-space loop: `restore_img += step`
followed by `restore_img = restore_img.clip(min=0, max=1.0)`. -/
def clipUpdate (img step : List ℚ) : List ℚ :=
  (List.zipWith (· + ·) img step).map clip01

/-- The loop of run.py lines 146-172 abstracted over the sequence of step
vectors it adds (each iteration ends by clipping to `[0, 1]`). -/
def restoreLoop (img : List ℚ) (steps : List (List ℚ)) : List ℚ :=
  steps.foldl clipUpdate img

lemma clipUpdate_mem_bounds (img st : List ℚ) :
    ∀ x ∈ clipUpdate img st, 0 ≤ x ∧ x ≤ 1 := by
  intro x hx
  rcases List.mem_map.mp hx with ⟨y, _, rfl⟩
  refine ⟨le_min (le_max_right y 0) (by norm_num), min_le_right _ _⟩

/-- C9: for in-range integer targets, `get_one_hot` returns a
`[len targets, nb_classes]` array whose row `i` is `1` exactly at column
`targets[i]` and `0` elsewhere. -/
theorem get_one_hot_spec (targets : List ℕ) (nb : ℕ)
    (ht : ∀ t ∈ targets, t < nb) (i j : ℕ)
    (hi : i < targets.length) (hj : j < nb) :
    (get_one_hot targets nb).length = targets.length ∧
    ((get_one_hot targets nb).getD i []).length = nb ∧
    ((get_one_hot targets nb).getD i []).getD j 0 =
      (if j = targets.getD i 0 then (1 : ℚ) else 0) := by
  have hlen : (get_one_hot targets nb).length = targets.length :=
    List.length_map _ _
  have hi2 : i < (get_one_hot targets nb).length := hlen ▸ hi
  have hrow : (get_one_hot targets nb).getD i [] = eyeRow nb (targets.getD i 0) := by
    rw [List.getD_eq_getElem _ _ hi2, List.getD_eq_getElem _ _ hi]
    simp [get_one_hot]
  refine ⟨hlen, ?_, ?_⟩
  · rw [hrow]
    simp [eyeRow]
  · rw [hrow]
    have hj2 : j < (eyeRow nb (targets.getD i 0)).length := by
      simp [eyeRow, hj]
    rw [List.getD_eq_getElem _ _ hj2]
    simp [eyeRow, hj, eq_comm]

/-- C9 witness: instantiation at `targets = [2, 0]`, `nb = 3`, `i = 1`, `j = 0`. -/
theorem get_one_hot_spec_witness :
    (get_one_hot [2, 0] 3).length = 2 ∧
    ((get_one_hot [2, 0] 3).getD 1 []).length = 3 ∧
    ((get_one_hot [2, 0] 3).getD 1 []).getD 0 0 =
      (if 0 = [2, 0].getD 1 0 then (1 : ℚ) else 0) :=
  get_one_hot_spec [2, 0] 3 (by decide) 1 0 (by decide) (by decide)

/-- C10: every element of `restore_img` lies in `[0, 1]` after every
iteration of run.py's input-space loop, because each iteration clips the
updated image to `[0, 1]` before the next iteration reads it. -/
theorem restore_img_in_unit_interval (img : List ℚ) (steps : List (List ℚ))
    (hne : steps ≠ []) :
    ∀ x ∈ restoreLoop img steps, 0 ≤ x ∧ x ≤ 1 := by
  induction steps generalizing img with
  | nil => exact absurd rfl hne
  | cons s rest ih =>
    cases rest with
    | nil => simpa [restoreLoop] using clipUpdate_mem_bounds img s
    | cons s2 rest2 =>
      intro x hx
      exact ih (clipUpdate img s) (by simp) x (by simpa [restoreLoop] using hx)

/-- C10 witness: one iteration starting from `[1/2]` with step `[5]`
produces the clipped value `1`, inside `[0, 1]`. -/
theorem restore_img_in_unit_interval_witness :
    0 ≤ (restoreLoop [1/2] [[5]]).getD 0 0 ∧ (restoreLoop [1/2] [[5]]).getD 0 0 ≤ 1 := by
  have hres : restoreLoop [1/2] [[5]] = [1] := by
    simp [restoreLoop, clipUpdate, clip01]
    norm_num
  exact restore_img_in_unit_interval [1/2] [[5]] (by simp)
    ((restoreLoop [1/2] [[5]]).getD 0 0) (by rw [hres]; simp)

/-! ### Adam optimizer (modelled from spec §4.4; core/optimizer.py is not under src/) -/

/-- Modelled from the spec: hyperparameters of the Adam optimizer in
core/optimizer.py, which is not under src/ (lr, β1, β2, ε). -/
structure AdamCfg where
  lr : ℝ
  b1 : ℝ
  b2 : ℝ
  eps : ℝ

/-- Modelled from the spec: Adam's mutable state — a shared global timestep
`t` and per-slot first and second moment estimates `m`, `v` over `n`
logical parameter slots. -/
structure AdamState (n : ℕ) where
  t : ℕ
  m : Fin n → ℝ
  v : Fin n → ℝ

namespace Adam

/-- Modelled from the spec: initial Adam state — `m` and `v` initialized to
zero, `t` initialized to 0. -/
def init (n : ℕ) : AdamState n := ⟨0, fun _ => 0, fun _ => 0⟩

/-- Modelled from the spec: one call of Adam's `_compute_step` on a flat
gradient `g`, executed once per call: `t ← t+1`; moment updates written in
the incremental implementation form `m ← m + (1−β1)·(g−m)` and
`v ← v + (1−β2)·(g²−v)` (algebraically equal to the spec's
`β1·m + (1−β1)·g` and `β2·v + (1−β2)·g²`); bias correction
`m̂ = m/(1−β1^t)`, `v̂ = v/(1−β2^t)`; returned step `−lr·m̂/(√v̂ + ε)`. -/
noncomputable def compute_step {n : ℕ} (cfg : AdamCfg) (s : AdamState n)
    (g : Fin n → ℝ) : AdamState n × (Fin n → ℝ) :=
  let t := s.t + 1
  let m := fun i => s.m i + (1 - cfg.b1) * (g i - s.m i)
  let v := fun i => s.v i + (1 - cfg.b2) * (g i ^ 2 - s.v i)
  (⟨t, m, v⟩,
   fun i => -cfg.lr * (m i / (1 - cfg.b1 ^ t)) /
     (Real.sqrt (v i / (1 - cfg.b2 ^ t)) + cfg.eps))

end Adam

/-- C1: each call of Adam's `compute_step` performs exactly one state
update and returns the corresponding step: `t` is incremented by 1,
`m` becomes `β1·m + (1−β1)·g`, `v` becomes `β2·v + (1−β2)·g²`, and the
returned step is `−lr·(m/(1−β1^t))/(√(v/(1−β2^t)) + ε)` in terms of the
updated state; `m`, `v` start at zero and `t` starts at 0. -/
theorem adam_compute_step_spec {n : ℕ} (cfg : AdamCfg) (s : AdamState n)
    (g : Fin n → ℝ) :
    ((Adam.compute_step cfg s g).1.t = s.t + 1) ∧
    (∀ i, (Adam.compute_step cfg s g).1.m i = cfg.b1 * s.m i + (1 - cfg.b1) * g i) ∧
    (∀ i, (Adam.compute_step cfg s g).1.v i = cfg.b2 * s.v i + (1 - cfg.b2) * g i ^ 2) ∧
    (∀ i, (Adam.compute_step cfg s g).2 i =
      -cfg.lr * ((Adam.compute_step cfg s g).1.m i / (1 - cfg.b1 ^ (s.t + 1))) /
        (Real.sqrt ((Adam.compute_step cfg s g).1.v i / (1 - cfg.b2 ^ (s.t + 1))) + cfg.eps)) ∧
    ((Adam.init n).t = 0) ∧ (∀ i, (Adam.init n).m i = 0) ∧ (∀ i, (Adam.init n).v i = 0) := by
  refine ⟨rfl, fun i => ?_, fun i => ?_, fun i => rfl, rfl, fun i => rfl, fun i => rfl⟩
  · show s.m i + (1 - cfg.b1) * (g i - s.m i) = _
    ring
  · show s.v i + (1 - cfg.b2) * (g i ^ 2 - s.v i) = _
    ring

/-! ### Dense layer algebra (modelled from spec §4.1; core/layers.py is not under src/) -/

/-- Modelled from the spec: Dense forward pass from core/layers.py (not
under src/): `output = input · W + b`, `W : [in_features, out_features]`,
`b : [out_features]` broadcast over the batch. -/
def denseForward {N D K : ℕ} (input : Matrix (Fin N) (Fin D) ℝ)
    (W : Matrix (Fin D) (Fin K) ℝ) (b : Fin K → ℝ) : Matrix (Fin N) (Fin K) ℝ :=
  input * W + Matrix.of (fun _ k => b k)

/-- Modelled from the spec: Dense backward, weight gradient
`grad_W = inputᵗ · grad_output`. -/
def denseGradW {N D K : ℕ} (input : Matrix (Fin N) (Fin D) ℝ)
    (gradOut : Matrix (Fin N) (Fin K) ℝ) : Matrix (Fin D) (Fin K) ℝ :=
  input.transpose * gradOut

/-- Modelled from the spec: Dense backward, bias gradient
`grad_b = column-sum of grad_output`. -/
def denseGradB {N K : ℕ} (gradOut : Matrix (Fin N) (Fin K) ℝ) : Fin K → ℝ :=
  fun k => ∑ i, gradOut i k

/-- Modelled from the spec: Dense backward, input gradient
`grad_input = grad_output · Wᵗ`. -/
def denseGradInput {N D K : ℕ} (gradOut : Matrix (Fin N) (Fin K) ℝ)
    (W : Matrix (Fin D) (Fin K) ℝ) : Matrix (Fin N) (Fin D) ℝ :=
  gradOut * W.transpose

/-- C4: for a built Dense layer with weight `W : [D, K]` and cached input
`[N, D]`, the forward output is `input · W + b` (shape `[N, K]` by its
type), entrywise `∑ d, input i d · W d k + b k`; backward computes
`grad_W = inputᵗ · grad_output` entrywise `∑ i, input i d · grad_output i k`,
`grad_b` = column-sum of `grad_output`, and
`grad_input = grad_output · Wᵗ` (shape `[N, D]` by its type), entrywise
`∑ k, grad_output i k · W d k`. -/
theorem dense_forward_backward_spec {N D K : ℕ}
    (input : Matrix (Fin N) (Fin D) ℝ) (W : Matrix (Fin D) (Fin K) ℝ)
    (b : Fin K → ℝ) (gradOut : Matrix (Fin N) (Fin K) ℝ) :
    (denseForward input W b = input * W + Matrix.of (fun _ k => b k)) ∧
    (∀ i k, denseForward input W b i k = (∑ d, input i d * W d k) + b k) ∧
    (∀ d k, denseGradW input gradOut d k = ∑ i, input i d * gradOut i k) ∧
    (∀ k, denseGradB gradOut k = ∑ i, gradOut i k) ∧
    (∀ i d, denseGradInput gradOut W i d = ∑ k, gradOut i k * W d k) := by
  refine ⟨rfl, fun i k => ?_, fun d k => ?_, fun k => rfl, fun i d => ?_⟩
  · simp [denseForward, Matrix.add_apply, Matrix.mul_apply]
  · simp [denseGradW, Matrix.mul_apply, Matrix.transpose_apply]
  · simp [denseGradInput, Matrix.mul_apply, Matrix.transpose_apply]

/-! ### SoftmaxCrossEntropy loss (modelled from spec §4.3; core/losses.py is not under src/) -/

/-- Row maximum of a (nonempty) row of logits, subtracted for numerical
stability. -/
def rowMax {K : ℕ} (x : Fin (K + 1) → ℝ) : ℝ :=
  Finset.univ.sup' Finset.univ_nonempty x

/-- Modelled from the spec: the numerically-stable row-wise softmax of
core/losses.py (not under src/): subtract the per-row maximum before
exponentiating, then normalize. -/
noncomputable def softmax {K : ℕ} (x : Fin (K + 1) → ℝ) : Fin (K + 1) → ℝ :=
  fun j => Real.exp (x j - rowMax x) / ∑ k, Real.exp (x k - rowMax x)

/-- Textbook softmax without the stabilizing max subtraction, for
comparison. -/
noncomputable def softmaxPlain {K : ℕ} (x : Fin (K + 1) → ℝ) : Fin (K + 1) → ℝ :=
  fun j => Real.exp (x j) / ∑ k, Real.exp (x k)

/-- Modelled from the spec: `SoftmaxCrossEntropyLoss.loss` from
core/losses.py (not under src/): stable softmax, then categorical
cross-entropy against one-hot targets, averaged over the batch of size
`N+1`. -/
noncomputable def sceLoss {N K : ℕ} (p t : Fin (N + 1) → Fin (K + 1) → ℝ) : ℝ :=
  (∑ i, ∑ j, -(t i j * Real.log (softmax (p i) j))) / (N + 1)

/-- Modelled from the spec: `SoftmaxCrossEntropyLoss.grad` from
core/losses.py (not under src/): `(softmax(predictions) − targets) /
batch_size`. -/
noncomputable def sceGrad {N K : ℕ} (p t : Fin (N + 1) → Fin (K + 1) → ℝ) :
    Fin (N + 1) → Fin (K + 1) → ℝ :=
  fun i j => (softmax (p i) j - t i j) / (N + 1)

/-- Subtracting any constant before exponentiating leaves the normalized
softmax unchanged: the shared factor `exp (−M)` cancels. -/
lemma softmax_sub_const {K : ℕ} (x : Fin (K + 1) → ℝ) (M : ℝ) :
    (fun j => Real.exp (x j - M) / ∑ k, Real.exp (x k - M)) = softmaxPlain x := by
  funext j
  have hsum : (∑ k, Real.exp (x k - M)) = (∑ k, Real.exp (x k)) * Real.exp (-M) := by
    rw [Finset.sum_mul]
    refine Finset.sum_congr rfl (fun k _ => ?_)
    rw [← Real.exp_add]
    ring_nf
  have hj : Real.exp (x j - M) = Real.exp (x j) * Real.exp (-M) := by
    rw [← Real.exp_add]
    ring_nf
  rw [softmaxPlain, hsum, hj, mul_div_mul_right _ _ (Real.exp_ne_zero (-M))]

/-- The stable softmax equals the textbook softmax. -/
lemma softmax_eq_plain {K : ℕ} (x : Fin (K + 1) → ℝ) : softmax x = softmaxPlain x :=
  softmax_sub_const x (rowMax x)

/-- The textbook softmax is invariant under adding a constant to a row. -/
lemma softmaxPlain_shift {K : ℕ} (x : Fin (K + 1) → ℝ) (c : ℝ) :
    softmaxPlain (fun j => x j + c) = softmaxPlain x := by
  refine (softmax_sub_const (fun j => x j + c) c).symm.trans ?_
  funext j
  simp [softmaxPlain]

/-- The stable softmax is invariant under adding a constant to a row. -/
lemma softmax_shift {K : ℕ} (x : Fin (K + 1) → ℝ) (c : ℝ) :
    softmax (fun j => x j + c) = softmax x := by
  rw [softmax_eq_plain, softmax_eq_plain, softmaxPlain_shift]

/-- C2: `SoftmaxCrossEntropyLoss.grad` equals
`(softmax(predictions) − targets) / batch_size`, where the softmax is the
row-wise max-subtracted one — which coincides with the textbook softmax
(first conjunct), so the stabilization does not change the gradient. -/
theorem sce_grad_spec {N K : ℕ} (p t : Fin (N + 1) → Fin (K + 1) → ℝ)
    (i : Fin (N + 1)) (j : Fin (K + 1)) :
    sceGrad p t i j = (softmaxPlain (p i) j - t i j) / (N + 1) ∧
    sceGrad p t i j =
      (Real.exp (p i j - rowMax (p i)) / (∑ k, Real.exp (p i k - rowMax (p i)))
        - t i j) / (N + 1) := by
  constructor
  · rw [sceGrad, softmax_eq_plain]
  · rfl

/-- C3: the SoftmaxCrossEntropy loss value is unchanged when a constant `c`
is added to every logit of one row `r` of the predictions (shift-invariance
of softmax). -/
theorem sce_loss_shift_invariant {N K : ℕ} (p t : Fin (N + 1) → Fin (K + 1) → ℝ)
    (r : Fin (N + 1)) (c : ℝ) :
    sceLoss (Function.update p r (fun j => p r j + c)) t = sceLoss p t := by
  unfold sceLoss
  congr 1
  refine Finset.sum_congr rfl (fun i _ => ?_)
  by_cases hir : i = r
  · subst hir
    rw [Function.update_same, softmax_shift]
  · rw [Function.update_noteq hir]

/-! ### Conv2D padding geometry (modelled from spec §4.1; core/layers.py is not under src/) -/

/-- Modelled from the spec: output spatial size of Conv2D with "SAME"
padding — `ceil(S / s)` computed in integer arithmetic. -/
def sameOutSize (S s : ℕ) : ℕ := (S + s - 1) / s

/-- Modelled from the spec: total zero padding inserted along one spatial
axis by "SAME" padding with input size `S`, stride `s`, kernel size `k`
(truncated subtraction caps it at 0). -/
def samePadTotal (S s k : ℕ) : ℕ := (sameOutSize S s - 1) * s + k - S

/-- Modelled from the spec: padding on the leading edge — half the total,
rounded down, so any odd excess goes to the trailing edge (the spec's
recommended tie-break). -/
def samePadBefore (S s k : ℕ) : ℕ := samePadTotal S s k / 2

/-- Modelled from the spec: padding on the trailing edge — the remainder
of the total after the leading edge's share. -/
def samePadAfter (S s k : ℕ) : ℕ := samePadTotal S s k - samePadBefore S s k

/-- Modelled from the spec: output spatial size of Conv2D with "VALID"
padding — no padding, the output shrinks to `(S − k)/s + 1`. -/
def validOutSize (S s k : ℕ) : ℕ := (S - k) / s + 1

/-- C6: with "SAME" padding the output spatial size is `ceil(S/s)`
(characterized as the least `n` with `S ≤ n·s`), the padding is split
symmetrically (the two sides differ by `samePadTotal % 2 ≤ 1`, summing to
the total) with the extra unit on the trailing edge when the total is odd;
with "VALID" padding the output size never exceeds the input and strictly
shrinks for kernels wider than one. -/
theorem conv2d_padding_spec (S s k : ℕ) (hs : 0 < s) (hk : 0 < k) (hkS : k ≤ S) :
    (S ≤ sameOutSize S s * s) ∧
    (∀ n, S ≤ n * s → sameOutSize S s ≤ n) ∧
    (samePadBefore S s k + samePadAfter S s k = samePadTotal S s k) ∧
    (samePadBefore S s k ≤ samePadAfter S s k) ∧
    (samePadAfter S s k - samePadBefore S s k = samePadTotal S s k % 2) ∧
    (samePadTotal S s k % 2 = 1 → samePadAfter S s k = samePadBefore S s k + 1) ∧
    (validOutSize S s k ≤ S) ∧
    (1 < k → validOutSize S s k < S) := by
  have hq : S + s - 1 < (sameOutSize S s + 1) * s := by
    rw [← Nat.div_lt_iff_lt_mul hs]
    exact Nat.lt_succ_self _
  refine ⟨?_, ?_, ?_, ?_, ?_, ?_, ?_, ?_⟩
  · rw [Nat.succ_mul] at hq
    generalize hQ : sameOutSize S s * s = Q at hq
    omega
  · intro n hn
    have : sameOutSize S s < n + 1 := by
      rw [sameOutSize, Nat.div_lt_iff_lt_mul hs, Nat.succ_mul]
      generalize hQ : n * s = Q at hn
      omega
    omega
  · unfold samePadAfter samePadBefore
    omega
  · unfold samePadAfter samePadBefore
    omega
  · unfold samePadAfter samePadBefore
    omega
  · unfold samePadAfter samePadBefore
    omega
  · have h1 : (S - k) / s ≤ S - k := Nat.div_le_self _ _
    unfold validOutSize
    omega
  · intro h2
    have h1 : (S - k) / s ≤ S - k := Nat.div_le_self _ _
    unfold validOutSize
    omega

/-- C6 witness: `S = 28`, `s = 2`, `k = 5` (the first Conv2D of run.py's
cnn model): output size 14, total padding 3, split 1 before / 2 after. -/
theorem conv2d_padding_spec_witness :
    (28 ≤ sameOutSize 28 2 * 2) ∧ (samePadBefore 28 2 5 ≤ samePadAfter 28 2 5) :=
  ⟨(conv2d_padding_spec 28 2 5 (by decide) (by decide) (by decide)).1,
   (conv2d_padding_spec 28 2 5 (by decide) (by decide) (by decide)).2.2.2.1⟩

/-! ### Parameter persistence (modelled from spec §4.5/§6; core/model.py is not under src/) -/

/-- Shape of a per-layer flattened parameter list: the lengths of each
layer's parameter array. -/
def paramShapes (ps : List (List ℚ)) : List ℕ := ps.map List.length

/-- Modelled from the spec: `Model.save` from core/model.py (not under
src/, called in run2.py as `model.load`): serializes every layer's
parameter values exactly. -/
def saveParams (ps : List (List ℚ)) : List (List ℚ) := ps

/-- Load failure: the snapshot's shapes do not match the Net's. -/
inductive LoadError where
  | shapeMismatch
deriving DecidableEq

/-- Modelled from the spec: `Model.load` from core/model.py (not under
src/): validates shape compatibility against the current parameters, then
replaces every parameter value with the snapshot's; a mismatch is a fatal
error, never a silent reshape. -/
def loadParams (current snapshot : List (List ℚ)) :
    Except LoadError (List (List ℚ)) :=
  if paramShapes current = paramShapes snapshot then Except.ok snapshot
  else Except.error LoadError.shapeMismatch

/-- C7: saving a Net's parameters, arbitrarily perturbing them in memory
(any values of the same shapes), then loading the snapshot succeeds and
restores every parameter value exactly (bit-identical round-trip). -/
theorem save_load_round_trip (ps perturbed : List (List ℚ))
    (hshape : paramShapes perturbed = paramShapes ps) :
    loadParams perturbed (saveParams ps) = Except.ok ps := by
  rw [loadParams, saveParams, if_pos hshape]

/-- C7 witness: a one-layer net `[[1/2, 3]]` perturbed to `[[7, -1]]`
round-trips to the original values. -/
theorem save_load_round_trip_witness :
    loadParams [[7, -1]] (saveParams [[1/2, 3]]) = Except.ok [[1/2, 3]] :=
  save_load_round_trip [[1/2, 3]] [[7, -1]] (by decide)

/-! ### Dense lazy build and width check (modelled from spec §4.1/§7/§9; core/layers.py is not under src/) -/

/-- A Dense layer: requested output width, the input width fixed by the
one-time build step (`none` while unbuilt), and its parameters. -/
structure DenseLayer where
  num_out : ℕ
  builtWidth : Option ℕ
  W : ℕ → ℕ → ℚ
  b : ℕ → ℚ

/-- Width of a batch input (the length of its first row). -/
def inputWidth (input : List (List ℚ)) : ℕ := (input.headD []).length

/-- Fatal layer errors surfaced by forward. -/
inductive LayerError where
  | shapeMismatch
deriving DecidableEq

/-- The affine map `row · W + b` applied to every row of the batch. -/
def denseApply (l : DenseLayer) (input : List (List ℚ)) : List (List ℚ) :=
  input.map (fun row =>
    (List.range l.num_out).map (fun kk =>
      (∑ d ∈ Finset.range row.length, row.getD d 0 * l.W d kk) + l.b kk))

/-- Modelled from the spec: `Dense.forward` from core/layers.py (not under
src/) with the two-phase build lifecycle — the first call fixes the input
width (one-time build), and every later call requires the same input width
or fails immediately with a fatal shape-mismatch error (no silent
broadcasting or truncation). -/
def DenseLayer.forward (l : DenseLayer) (input : List (List ℚ)) :
    Except LayerError (DenseLayer × List (List ℚ)) :=
  match l.builtWidth with
  | none =>
      let l2 : DenseLayer := { l with builtWidth := some (inputWidth input) }
      Except.ok (l2, denseApply l2 input)
  | some D =>
      if inputWidth input = D then Except.ok (l, denseApply l input)
      else Except.error LayerError.shapeMismatch

/-- C8: a Dense layer built with input width `D` fails immediately with a
fatal shape-mismatch error on any forward call whose input width differs
from `D`; in particular no output is ever produced for such an input
(first-call build recalled in the last conjunct: an unbuilt layer fixes
its width to the observed input width). -/
theorem dense_width_mismatch_fatal (l : DenseLayer) (D : ℕ) (input : List (List ℚ))
    (hb : l.builtWidth = some D) (hw : inputWidth input ≠ D) :
    (l.forward input = Except.error LayerError.shapeMismatch) ∧
    (∀ r, l.forward input ≠ Except.ok r) ∧
    (∀ l0 : DenseLayer, l0.builtWidth = none → ∀ inp,
      ∃ out, l0.forward inp =
        Except.ok ({ l0 with builtWidth := some (inputWidth inp) }, out)) := by
  have hfail : l.forward input = Except.error LayerError.shapeMismatch := by
    rw [DenseLayer.forward, hb]
    simp [hw]
  refine ⟨hfail, fun r hr => by rw [hfail] at hr; exact Except.noConfusion hr, ?_⟩
  intro l0 h0 inp
  refine ⟨denseApply { l0 with builtWidth := some (inputWidth inp) } inp, ?_⟩
  rw [DenseLayer.forward, h0]

/-- C8 witness: a layer built with width 3 rejects a width-2 input. -/
theorem dense_width_mismatch_fatal_witness :
    DenseLayer.forward ⟨10, some 3, fun _ _ => 0, fun _ => 0⟩ [[1, 2]] =
      Except.error LayerError.shapeMismatch :=
  (dense_width_mismatch_fatal ⟨10, some 3, fun _ _ => 0, fun _ => 0⟩ 3 [[1, 2]]
    rfl (by decide)).1

/-! ### MaxPool2D gradient routing (modelled from spec §4.1; core/layers.py is not under src/) -/

/-- Modelled from the spec: the input coordinates covered by the pooling
window of output position `(oh, ow)` with pool size `ph × pw` and stride
`sh × sw`, in row-major order (one channel plane of the 4D batch; pooling
acts independently per sample and channel). -/
def windowCoords (ph pw sh sw oh ow : ℕ) : List (ℕ × ℕ) :=
  (List.range ph).flatMap (fun a =>
    (List.range pw).map (fun b => (oh * sh + a, ow * sw + b)))

/-- First-maximum fold: scans candidates, replacing the current best only
on a strictly larger value (numpy's argmax keeps the first maximum). -/
def argmaxFold (x : ℕ → ℕ → ℚ) (best : ℕ × ℕ) (l : List (ℕ × ℕ)) : ℕ × ℕ :=
  l.foldl (fun acc p => if x acc.1 acc.2 < x p.1 p.2 then p else acc) best

/-- Modelled from the spec: the index map recorded by `MaxPool2D.forward`
(core/layers.py, not under src/) — per output window, the input position
whose value was selected as the window maximum. -/
def recordedPos (x : ℕ → ℕ → ℚ) (ph pw sh sw oh ow : ℕ) : ℕ × ℕ :=
  match windowCoords ph pw sh sw oh ow with
  | [] => (oh * sh, ow * sw)
  | p :: rest => argmaxFold x p rest

/-- Modelled from the spec: the forward output of `MaxPool2D` — the value
at the recorded position, i.e. the window maximum. -/
def maxpoolForward (x : ℕ → ℕ → ℚ) (ph pw sh sw oh ow : ℕ) : ℚ :=
  x (recordedPos x ph pw sh sw oh ow).1 (recordedPos x ph pw sh sw oh ow).2

/-- Modelled from the spec: `MaxPool2D.backward` (core/layers.py, not
under src/) — each output gradient entry is routed entirely to the
recorded max position of its window; an input position receives the sum of
the contributions of every window that recorded it (accumulation, not
overwrite) and zero when no window recorded it. -/
def maxpoolBackward (pos : ℕ → ℕ → ℕ × ℕ) (gradOut : ℕ → ℕ → ℚ) (OH OW : ℕ) :
    ℕ → ℕ → ℚ :=
  fun i j => ∑ o ∈ Finset.range OH ×ˢ Finset.range OW,
    if pos o.1 o.2 = (i, j) then gradOut o.1 o.2 else 0

lemma mem_windowCoords {ph pw sh sw oh ow : ℕ} {q : ℕ × ℕ} :
    q ∈ windowCoords ph pw sh sw oh ow ↔
      ∃ a < ph, ∃ b < pw, q = (oh * sh + a, ow * sw + b) := by
  simp only [windowCoords, List.mem_flatMap, List.mem_map, List.mem_range]
  constructor
  · rintro ⟨a, ha, b, hb, rfl⟩
    exact ⟨a, ha, b, hb, rfl⟩
  · rintro ⟨a, ha, b, hb, rfl⟩
    exact ⟨a, ha, b, hb, rfl⟩

lemma argmaxFold_mem (x : ℕ → ℕ → ℚ) (best : ℕ × ℕ) (l : List (ℕ × ℕ)) :
    argmaxFold x best l ∈ best :: l := by
  induction l generalizing best with
  | nil => simp [argmaxFold]
  | cons p rest ih =>
    have h2 := ih (if x best.1 best.2 < x p.1 p.2 then p else best)
    have heq : argmaxFold x best (p :: rest) =
        argmaxFold x (if x best.1 best.2 < x p.1 p.2 then p else best) rest := rfl
    rw [heq, List.mem_cons]
    rw [List.mem_cons] at h2
    rcases h2 with h2 | h2
    · rw [h2]
      by_cases hlt : x best.1 best.2 < x p.1 p.2
      · rw [if_pos hlt]
        exact Or.inr (List.mem_cons_self p rest)
      · rw [if_neg hlt]
        exact Or.inl rfl
    · exact Or.inr (List.mem_cons_of_mem p h2)

lemma argmaxFold_le (x : ℕ → ℕ → ℚ) (best : ℕ × ℕ) (l : List (ℕ × ℕ)) :
    x best.1 best.2 ≤ x (argmaxFold x best l).1 (argmaxFold x best l).2 := by
  induction l generalizing best with
  | nil => simp [argmaxFold]
  | cons p rest ih =>
    have step : x best.1 best.2 ≤
        x (if x best.1 best.2 < x p.1 p.2 then p else best).1
          (if x best.1 best.2 < x p.1 p.2 then p else best).2 := by
      by_cases hlt : x best.1 best.2 < x p.1 p.2
      · simpa [hlt] using le_of_lt hlt
      · simp [hlt]
    exact le_trans step (ih _)

lemma argmaxFold_ge_mem (x : ℕ → ℕ → ℚ) (best : ℕ × ℕ) (l : List (ℕ × ℕ)) :
    ∀ q ∈ l, x q.1 q.2 ≤ x (argmaxFold x best l).1 (argmaxFold x best l).2 := by
  induction l generalizing best with
  | nil => intro q hq; exact absurd hq (List.not_mem_nil q)
  | cons p rest ih =>
    intro q hq
    rw [List.mem_cons] at hq
    rcases hq with rfl | hq
    · have step : x q.1 q.2 ≤
          x (if x best.1 best.2 < x q.1 q.2 then q else best).1
            (if x best.1 best.2 < x q.1 q.2 then q else best).2 := by
        by_cases hlt : x best.1 best.2 < x q.1 q.2
        · simp [hlt]
        · simpa [hlt] using le_of_not_lt hlt
      exact le_trans step (argmaxFold_le x _ rest)
    · exact ih _ q hq

lemma windowCoords_ne_nil {ph pw sh sw oh ow : ℕ} (hph : 0 < ph) (hpw : 0 < pw) :
    windowCoords ph pw sh sw oh ow ≠ [] := by
  intro h
  have : (oh * sh + 0, ow * sw + 0) ∈ windowCoords ph pw sh sw oh ow :=
    mem_windowCoords.mpr ⟨0, hph, 0, hpw, rfl⟩
  rw [h] at this
  exact List.not_mem_nil _ this

lemma recordedPos_mem (x : ℕ → ℕ → ℚ) {ph pw sh sw : ℕ} (oh ow : ℕ)
    (hph : 0 < ph) (hpw : 0 < pw) :
    recordedPos x ph pw sh sw oh ow ∈ windowCoords ph pw sh sw oh ow := by
  rw [recordedPos]
  rcases h : windowCoords ph pw sh sw oh ow with _ | ⟨p, rest⟩
  · exact absurd h (windowCoords_ne_nil hph hpw)
  · exact argmaxFold_mem x p rest

lemma recordedPos_max (x : ℕ → ℕ → ℚ) {ph pw sh sw : ℕ} (oh ow : ℕ) :
    ∀ q ∈ windowCoords ph pw sh sw oh ow,
      x q.1 q.2 ≤ maxpoolForward x ph pw sh sw oh ow := by
  intro q hq
  rw [maxpoolForward, recordedPos]
  rcases h : windowCoords ph pw sh sw oh ow with _ | ⟨p, rest⟩
  · rw [h] at hq; exact absurd hq (List.not_mem_nil q)
  · rw [h, List.mem_cons] at hq
    rcases hq with rfl | hq
    · exact argmaxFold_le x q rest
    · exact argmaxFold_ge_mem x p rest q hq

lemma recordedPos_in_grid (x : ℕ → ℕ → ℚ) {ph pw sh sw OH OW H W : ℕ}
    (hph : 0 < ph) (hpw : 0 < pw)
    (hH : (OH - 1) * sh + ph ≤ H) (hW : (OW - 1) * sw + pw ≤ W)
    {oh ow : ℕ} (hoh : oh < OH) (how : ow < OW) :
    (recordedPos x ph pw sh sw oh ow).1 < H ∧
    (recordedPos x ph pw sh sw oh ow).2 < W := by
  obtain ⟨a, ha, b, hb, heq⟩ :=
    mem_windowCoords.mp (recordedPos_mem x oh ow hph hpw)
  have h1 : oh * sh ≤ (OH - 1) * sh := Nat.mul_le_mul_right sh (by omega)
  have h2 : ow * sw ≤ (OW - 1) * sw := Nat.mul_le_mul_right sw (by omega)
  rw [heq]
  constructor
  · show oh * sh + a < H
    generalize hA : (OH - 1) * sh = A at h1 hH
    omega
  · show ow * sw + b < W
    generalize hB : (OW - 1) * sw = B at h2 hW
    omega

/-- C5: after a MaxPool2D forward that recorded, per output window, the
argmax input position (conjuncts 1-2: the recorded position lies in its
window and carries the window maximum), backward routes each output
gradient entry entirely to that recorded position: an input position no
window recorded receives zero (conjunct 3); a position recorded by exactly
one window receives exactly that window's gradient (conjunct 4);
overlapping windows accumulate by summation (the definition of
`maxpoolBackward`); and the total of grad_input equals the total of
grad_output whenever all windows fit in the input grid — in particular
when no windows overlap (conjunct 5). -/
theorem maxpool_backward_spec (x g : ℕ → ℕ → ℚ) (ph pw sh sw OH OW H W : ℕ)
    (hph : 0 < ph) (hpw : 0 < pw)
    (hH : (OH - 1) * sh + ph ≤ H) (hW : (OW - 1) * sw + pw ≤ W) :
    (∀ oh ow, recordedPos x ph pw sh sw oh ow ∈ windowCoords ph pw sh sw oh ow) ∧
    (∀ oh ow, ∀ q ∈ windowCoords ph pw sh sw oh ow,
      x q.1 q.2 ≤ maxpoolForward x ph pw sh sw oh ow) ∧
    (∀ i j, (∀ oh < OH, ∀ ow < OW, recordedPos x ph pw sh sw oh ow ≠ (i, j)) →
      maxpoolBackward (recordedPos x ph pw sh sw) g OH OW i j = 0) ∧
    (∀ i j oh ow, oh < OH → ow < OW →
      recordedPos x ph pw sh sw oh ow = (i, j) →
      (∀ oh2 < OH, ∀ ow2 < OW, (oh2, ow2) ≠ (oh, ow) →
        recordedPos x ph pw sh sw oh2 ow2 ≠ (i, j)) →
      maxpoolBackward (recordedPos x ph pw sh sw) g OH OW i j = g oh ow) ∧
    (∑ q ∈ Finset.range H ×ˢ Finset.range W,
        maxpoolBackward (recordedPos x ph pw sh sw) g OH OW q.1 q.2 =
      ∑ o ∈ Finset.range OH ×ˢ Finset.range OW, g o.1 o.2) := by
  refine ⟨fun oh ow => recordedPos_mem x oh ow hph hpw,
    fun oh ow => recordedPos_max x oh ow, ?_, ?_, ?_⟩
  · intro i j hno
    refine Finset.sum_eq_zero ?_
    rintro ⟨oh, ow⟩ ho
    rw [Finset.mem_product, Finset.mem_range, Finset.mem_range] at ho
    exact if_neg (hno oh ho.1 ow ho.2)
  · intro i j oh ow hoh how hpos huniq
    rw [maxpoolBackward,
      Finset.sum_eq_single_of_mem (oh, ow)
        (Finset.mem_product.mpr ⟨Finset.mem_range.mpr hoh, Finset.mem_range.mpr how⟩)
        ?_]
    · exact if_pos hpos
    · rintro ⟨oh2, ow2⟩ hmem hne
      rw [Finset.mem_product, Finset.mem_range, Finset.mem_range] at hmem
      exact if_neg (huniq oh2 hmem.1 ow2 hmem.2 hne)
  · simp only [maxpoolBackward]
    rw [Finset.sum_comm]
    refine Finset.sum_congr rfl ?_
    rintro ⟨oh, ow⟩ ho
    rw [Finset.mem_product, Finset.mem_range, Finset.mem_range] at ho
    have hgrid := recordedPos_in_grid x hph hpw hH hW ho.1 ho.2
    simp only [Prod.mk.eta]
    rw [Finset.sum_ite_eq]
    rw [if_pos (Finset.mem_product.mpr
      ⟨Finset.mem_range.mpr hgrid.1, Finset.mem_range.mpr hgrid.2⟩)]

/-- C5 witness: a 4×4 input pooled by 2×2 windows at stride 2 (the spec's
own test scenario, no overlap) with unit output gradients conserves the
gradient total. -/
theorem maxpool_backward_spec_witness :
    ∑ q ∈ Finset.range 4 ×ˢ Finset.range 4,
        maxpoolBackward
          (recordedPos (fun i j => ((i * 4 + j : ℕ) : ℚ)) 2 2 2 2)
          (fun _ _ => 1) 2 2 q.1 q.2 =
      ∑ o ∈ Finset.range 2 ×ˢ Finset.range 2, (fun (_ _ : ℕ) => (1 : ℚ)) o.1 o.2 :=
  (maxpool_backward_spec (fun i j => ((i * 4 + j : ℕ) : ℚ)) (fun _ _ => 1)
    2 2 2 2 2 2 4 4 (by decide) (by decide) (by decide) (by decide)).2.2.2.2

end TinyNN
